import Mathlib

/-!
Verification of the LaTeX micro-parser in `scripts/utils.py`:
`find_matching_brace`, `extract_latex_args` and `parse_cventry`.

The document is modelled as a `List Char`.  Scan positions are `Nat` for the
ordinary (non-negative) domain; a second family of definitions with `Int`
positions models Python's negative-index semantics (negative indices wrap
around from the end; an index out of range on both sides raises `IndexError`,
modelled as `none`).  All loops are written with an explicit fuel argument
that is always at least the number of iterations the Python loop performs,
so every definition is structural and evaluates by `decide` / `rfl`.
-/

namespace Resume

/-- The whitespace set used by `extract_latex_args` (`text[pos] in ' \n\t'`). -/
def isWsChar (c : Char) : Bool := c == ' ' || c == '\n' || c == '\t'

/-- Python `str.strip` whitespace (ASCII part): space, tab, newline, carriage
return, vertical tab, form feed. -/
def isPyWs (c : Char) : Bool :=
  c == ' ' || c == '\t' || c == '\n' || c == '\r' || c == '\x0b' || c == '\x0c'

/-- Python `str.strip()`: remove leading and trailing whitespace. -/
def pyStrip (s : List Char) : List Char :=
  ((s.dropWhile isPyWs).reverse.dropWhile isPyWs).reverse

/-- Number of consecutive backslashes immediately preceding position `p`
(the backward `while temp_pos >= 0 and text[temp_pos] == '\\'` loop of
`find_matching_brace`). -/
def countBackslashesBefore (text : List Char) : Nat → Nat
  | 0 => 0
  | p + 1 => if text.get? p = some '\\' then countBackslashesBefore text p + 1 else 0

/-- `is_escaped = (num_backslashes % 2 == 1)` in `find_matching_brace`. -/
def isEscaped (text : List Char) (pos : Nat) : Bool :=
  countBackslashesBefore text pos % 2 == 1

/-- The scanning loop of `find_matching_brace`
(`while pos < len(text) and count > 0`).  The fuel is always at least
`text.length - pos`, so the fuel-0 case only happens with `pos ≥ text.length`,
where it returns exactly what the Python loop exit returns. -/
def fmbLoop (text : List Char) : Nat → Nat → Nat → Int
  | 0, pos, count => if count = 0 then (pos : Int) else -1
  | fuel + 1, pos, count =>
    if count = 0 then (pos : Int)
    else if h : pos < text.length then
      let c := text.get ⟨pos, h⟩
      let count' :=
        if isEscaped text pos then count
        else if c = '\x7b' then count + 1
        else if c = '\x7d' then count - 1
        else count
      fmbLoop text fuel (pos + 1) count'
    else -1

/-- `find_matching_brace(text, start_pos)` for a non-negative start position.
Returns the index one past the matching closing brace, or `-1`. -/
def find_matching_brace (text : List Char) (start_pos : Nat) : Int :=
  if text.length = 0 ∨ text.length ≤ start_pos then -1
  else fmbLoop text (text.length - start_pos) start_pos 1

/-- The whitespace-skipping loop of `extract_latex_args`
(`while pos < len(text) and text[pos] in ' \n\t'`). -/
def skipWs (text : List Char) : Nat → Nat → Nat
  | 0, pos => pos
  | fuel + 1, pos =>
    if h : pos < text.length then
      if isWsChar (text.get ⟨pos, h⟩) then skipWs text fuel (pos + 1) else pos
    else pos

/-- Python slice `text[a:b]` for `0 ≤ a ≤ b` (clamping at the length). -/
def sliceList (text : List Char) (a b : Nat) : List Char :=
  (text.drop a).take (b - a)

/-- The `for arg_num in range(1, num_args + 1)` loop of `extract_latex_args`.
`start` is the original start position, returned unchanged on failure. -/
def extractLoop (text : List Char) (start : Nat) :
    Nat → Nat → List (List Char) → Option (List (List Char)) × Nat
  | 0, pos, acc => (some acc, pos)
  | k + 1, pos, acc =>
    let pos1 := skipWs text (text.length - pos) pos
    if h : pos1 < text.length then
      if text.get ⟨pos1, h⟩ = '\x7b' then
        let e := find_matching_brace text (pos1 + 1)
        if e = -1 then (none, start)
        else extractLoop text start k e.toNat (acc ++ [sliceList text (pos1 + 1) (e.toNat - 1)])
      else (none, start)
    else (none, start)

/-- `extract_latex_args(text, start, num_args)` for a non-negative start.
`(none, start)` models Python's `(None, start)` failure result. -/
def extract_latex_args (text : List Char) (start : Nat) (num_args : Int) :
    Option (List (List Char)) × Nat :=
  if text.length = 0 ∨ text.length ≤ start ∨ num_args ≤ 0 then (none, start)
  else extractLoop text start num_args.toNat start []

/-! ### Integer-position variants (full Python semantics)

Python indexing `text[i]` accepts `-len ≤ i < len`, wrapping negative
indices; anything else raises `IndexError` (modelled by `none`). -/

/-- Python `text[i]` for an integer index. -/
def pyGet (text : List Char) (i : Int) : Option Char :=
  if 0 ≤ i then text.get? i.toNat
  else if 0 ≤ (text.length : Int) + i then text.get? ((text.length : Int) + i).toNat
  else none

/-- The scanning loop of `find_matching_brace` with an `Int` position.
The backslash back-scan is guarded by `temp_pos >= 0`, so for `pos ≤ 0`
the backslash count is 0.  `none` models an uncaught `IndexError`. -/
def fmbLoopInt (text : List Char) : Nat → Int → Nat → Option Int
  | 0, pos, count => if count = 0 then some pos else some (-1)
  | fuel + 1, pos, count =>
    if count = 0 then some pos
    else if pos < (text.length : Int) then
      match pyGet text pos with
      | none => none
      | some c =>
        let nb := if pos ≤ 0 then 0 else countBackslashesBefore text pos.toNat
        let count' :=
          if nb % 2 = 1 then count
          else if c = '\x7b' then count + 1
          else if c = '\x7d' then count - 1
          else count
        fmbLoopInt text fuel (pos + 1) count'
    else some (-1)

/-- `find_matching_brace(text, start_pos)` with an arbitrary integer
start position, exactly as Python executes it. -/
def find_matching_brace_int (text : List Char) (start_pos : Int) : Option Int :=
  if text.length = 0 ∨ (text.length : Int) ≤ start_pos then some (-1)
  else fmbLoopInt text ((text.length : Int) - start_pos).toNat start_pos 1

/-- Python slice `text[a:b]` for arbitrary integer bounds. -/
def pySlice (text : List Char) (a b : Int) : List Char :=
  let n : Int := (text.length : Int)
  let a' := (if a < 0 then max 0 (n + a) else min a n).toNat
  let b' := (if b < 0 then max 0 (n + b) else min b n).toNat
  (text.take b').drop a'

/-- Whitespace skipping with an `Int` position (may raise `IndexError`). -/
def skipWsInt (text : List Char) : Nat → Int → Option Int
  | 0, pos => some pos
  | fuel + 1, pos =>
    if pos < (text.length : Int) then
      match pyGet text pos with
      | none => none
      | some c => if isWsChar c then skipWsInt text fuel (pos + 1) else some pos
    else some pos

/-- The argument loop of `extract_latex_args` with an `Int` position. -/
def extractLoopInt (text : List Char) (start : Int) :
    Nat → Int → List (List Char) → Option (Option (List (List Char)) × Int)
  | 0, pos, acc => some (some acc, pos)
  | k + 1, pos, acc =>
    match skipWsInt text ((text.length : Int) - pos).toNat pos with
    | none => none
    | some pos1 =>
      if (text.length : Int) ≤ pos1 then some (none, start)
      else
        match pyGet text pos1 with
        | none => none
        | some c =>
          if c = '\x7b' then
            match find_matching_brace_int text (pos1 + 1) with
            | none => none
            | some e =>
              if e = -1 then some (none, start)
              else extractLoopInt text start k e (acc ++ [pySlice text (pos1 + 1) (e - 1)])
          else some (none, start)

/-- `extract_latex_args(text, start, num_args)` with an arbitrary integer
start position, exactly as Python executes it; `none` models an uncaught
`IndexError`. -/
def extract_latex_args_int (text : List Char) (start : Int) (num_args : Int) :
    Option (Option (List (List Char)) × Int) :=
  if text.length = 0 ∨ (text.length : Int) ≤ start ∨ num_args ≤ 0 then some (none, start)
  else extractLoopInt text start num_args.toNat start []

/-! ### The entry scanner `parse_cventry` -/

/-- The literal marker of the regex `r'\\cventry'`. -/
def cventryStr : String := "\\cventry"

/-- The marker as a character list. -/
def cventryMarker : List Char := cventryStr.toList

/-- `re.search` for a literal pattern in `text[pos:]`, returning the absolute
index of the first occurrence at or after `pos`. -/
def findPatFrom (pat text : List Char) : Nat → Nat → Option Nat
  | 0, pos => if pat.isPrefixOf (text.drop pos) then some pos else none
  | fuel + 1, pos =>
    if pat.isPrefixOf (text.drop pos) then some pos
    else if pos < text.length then findPatFrom pat text fuel (pos + 1) else none

/-- One `[^}]+\}` group of the `\href` regex: a non-empty run of
non-`'\x7d'` characters followed by a closing brace; returns the run and the
remainder after the brace. -/
def scanGroup : List Char → Option (List Char × List Char)
  | [] => none
  | c :: rest =>
    if c = '\x7d' then none
    else
      match rest with
      | [] => none
      | c2 :: rest2 =>
        if c2 = '\x7d' then some ([c], rest2)
        else
          match scanGroup (c2 :: rest2) with
          | some (g, r) => some (c :: g, r)
          | none => none

/-- The literal head `\href{` of the regex `r'\\href\{([^}]+)\}\{([^}]+)\}'`. -/
def hrefOpenStr : String := "\\href\x7b"

/-- The head as a character list. -/
def hrefOpen : List Char := hrefOpenStr.toList

/-- Whether the `\href` regex matches at position `i` of `s`, and the two
captured groups if so. -/
def pyHrefAt (s : List Char) (i : Nat) : Option (List Char × List Char) :=
  if hrefOpen.isPrefixOf (s.drop i) then
    match scanGroup ((s.drop i).drop hrefOpen.length) with
    | some (u, rest) =>
      match rest with
      | c2 :: rest2 =>
        if c2 = '\x7b' then
          match scanGroup rest2 with
          | some (l, _) => some (u, l)
          | none => none
        else none
      | [] => none
    | none => none
  else none

/-- `re.search` for the `\href` regex: leftmost match position wins. -/
def pyHrefSearch (s : List Char) : Nat → Nat → Option (List Char × List Char)
  | 0, i => pyHrefAt s i
  | fuel + 1, i =>
    match pyHrefAt s i with
    | some r => some r
    | none => if i < s.length then pyHrefSearch s fuel (i + 1) else none

/-- `re.search(r'\\href\{([^}]+)\}\{([^}]+)\}', s)`. -/
def pyHrefSearchTop (s : List Char) : Option (List Char × List Char) :=
  pyHrefSearch s s.length 0

/-- One record returned by `parse_cventry`. -/
structure CvEntry where
  title : List Char
  tech : List Char
  link_url : List Char
  link_text : List Char
  content : List Char
deriving DecidableEq

/-- The record construction of `parse_cventry` from the four extracted
arguments: `\href` splitting of the third argument, then `.strip()` on
every stored field. -/
def mkEntry (title tech link_content content : List Char) : CvEntry :=
  match pyHrefSearchTop link_content with
  | some (u, l) =>
    ⟨pyStrip title, pyStrip tech, pyStrip u, pyStrip l, pyStrip content⟩
  | none =>
    ⟨pyStrip title, pyStrip tech, pyStrip [], pyStrip link_content, pyStrip content⟩

/-- The `while True` loop of `parse_cventry`.  On success the cursor moves to
the extractor's end position; on failure it moves one character past the end
of the marker occurrence. -/
def parseLoop (text : List Char) : Nat → Nat → List CvEntry
  | 0, _ => []
  | fuel + 1, pos =>
    match findPatFrom cventryMarker text (text.length + 1) pos with
    | none => []
    | some i =>
      match extract_latex_args text (i + cventryMarker.length) 4 with
      | (some (t :: te :: lc :: c :: []), endPos) =>
        mkEntry t te lc c :: parseLoop text fuel endPos
      | (_, _) => parseLoop text fuel (i + cventryMarker.length + 1)

/-- `parse_cventry(text)`.  The fuel `text.length + 2` is an upper bound on
the number of loop iterations (the cursor strictly increases and stays below
`text.length + 2`); fuel-independence beyond this bound is proved below. -/
def parse_cventry (text : List Char) : List CvEntry :=
  if text.length = 0 then [] else parseLoop text (text.length + 2) 0

/-! ### Specification-side notions (from the spec's wording) -/

/-- The depth contribution of the character at position `p`: an unescaped
`\x7b` counts `+1`, an unescaped `\x7d` counts `-1`, everything else `0`. -/
def braceDelta (text : List Char) (p : Nat) : Int :=
  if isEscaped text p then 0
  else if text.get? p = some '\x7b' then 1
  else if text.get? p = some '\x7d' then -1
  else 0

/-- Sum of the depth contributions of the `j` characters starting at `pos`. -/
def sumDelta (text : List Char) (pos : Nat) : Nat → Int
  | 0 => 0
  | j + 1 => sumDelta text pos j + braceDelta text (pos + j)

/-- The running brace depth after scanning `j` characters from `start`,
initialized to 1 (for the already-consumed opening brace). -/
def depthAfter (text : List Char) (start : Nat) (j : Nat) : Int :=
  1 + sumDelta text start j

/-- `k` is the number of consecutive backslash characters immediately
preceding position `p`: the `k` characters just before `p` are backslashes
and the run does not extend further left. -/
def backslashRun (text : List Char) (p k : Nat) : Prop :=
  k ≤ p ∧ (∀ i, i < k → text.get? (p - 1 - i) = some '\\') ∧
    (k = p ∨ text.get? (p - 1 - k) ≠ some '\\')

instance backslashRunDecidable (text : List Char) (p k : Nat) :
    Decidable (backslashRun text p k) := by
  unfold backslashRun
  exact inferInstance

/-- Specification of a successful `num_args`-argument extraction starting at
`pos` and ending with the cursor at `final`: for each argument, a run of
space/tab/newline characters is skipped, an opening brace follows, its
matching closing brace is the first position where the running depth
(initialized to 1 just after the opening brace) returns to zero, the
argument is the text strictly between the braces, and scanning resumes
immediately after the closing brace. -/
inductive ExtractSpec (text : List Char) : Nat → Nat → List (List Char) → Nat → Prop where
  | nil (pos : Nat) : ExtractSpec text pos 0 [] pos
  | cons (pos n q j final : Nat) (rest : List (List Char)) :
      pos ≤ q →
      (∀ i, pos ≤ i → i < q → ∃ c, text.get? i = some c ∧ isWsChar c = true) →
      text.get? q = some '\x7b' →
      isEscaped text (q + 1 + j) = false →
      text.get? (q + 1 + j) = some '\x7d' →
      depthAfter text (q + 1) (j + 1) = 0 →
      (∀ i, i ≤ j → depthAfter text (q + 1) i ≠ 0) →
      ExtractSpec text (q + 1 + j + 1) n rest final →
      ExtractSpec text pos (n + 1) (sliceList text (q + 1) (q + 1 + j) :: rest) final

/-- The `\href` regex matches `s` at position `i` with groups `u` and `l`:
`s` continues at `i` with `\href\x7b`, then the non-empty brace-free run `u`,
a closing brace, an opening brace, the non-empty brace-free run `l`, and a
closing brace. -/
def HrefMatchAt (s : List Char) (i : Nat) (u l : List Char) : Prop :=
  u ≠ [] ∧ l ≠ [] ∧ (∀ c ∈ u, c ≠ '\x7d') ∧ (∀ c ∈ l, c ≠ '\x7d') ∧
    ∃ tail, s.drop i = hrefOpen ++ u ++ '\x7d' :: '\x7b' :: l ++ '\x7d' :: tail

/-- A string has no leading and no trailing whitespace. -/
def noEdgeWs (s : List Char) : Prop :=
  (∀ c, s.head? = some c → isPyWs c = false) ∧
    (∀ c, s.getLast? = some c → isPyWs c = false)

/-! ### Concrete documents used in witnesses and counterexamples -/

/-- Two well-formed `\cventry` occurrences with a malformed one between. -/
def skipDocStr : String :=
  "\\cventry\x7bA\x7d\x7bB\x7d\x7bC\x7d\x7bD\x7d\\cventry X\\cventry\x7bE\x7d\x7bF\x7d\x7bG\x7d\x7bH\x7d"

/-- The skip demo document as a character list. -/
def skipDoc : List Char := skipDocStr.toList

/-- A well-formed `\cventry` occurrence nested inside the first argument of
another well-formed occurrence. -/
def nestedDocStr : String :=
  "\\cventry\x7b\\cventry\x7ba\x7d\x7bb\x7d\x7bc\x7d\x7bd\x7d\x7d\x7bx\x7d\x7by\x7d\x7bz\x7d"

/-- The nested demo document as a character list. -/
def nestedDoc : List Char := nestedDocStr.toList

/-- The worked example of the spec: `\cventry{Title}{Tech}{Link}{Content}`. -/
def titleDocStr : String :=
  "\\cventry\x7bTitle\x7d\x7bTech\x7d\x7bLink\x7d\x7bContent\x7d"

/-- The worked example as a character list. -/
def titleDoc : List Char := titleDocStr.toList

/-- An entry whose third argument carries an `\href` with padded groups. -/
def hrefDocStr : String :=
  "\\cventry\x7bT\x7d\x7bX\x7d\x7b\\href\x7b u \x7d\x7b l \x7d\x7d\x7bC\x7d"

/-- The href demo document as a character list. -/
def hrefDoc : List Char := hrefDocStr.toList

/-- An entry with whitespace-padded fields and no `\href`. -/
def padDocStr : String :=
  "\\cventry\x7b T \x7d\x7bX\x7d\x7b C \x7d\x7b B \x7d"

/-- The padded demo document as a character list. -/
def padDoc : List Char := padDocStr.toList

/-- The spec's escaped-closing-brace example `\x7ba\}b\x7d`. -/
def escDocStr : String := "\x7ba\\\x7db\x7d"

/-- The escape example as a character list. -/
def escDoc : List Char := escDocStr.toList

/-- The spec's double-backslash example `\\\x7d`. -/
def dblBackslashStr : String := "\\\\\x7d"

/-- The double-backslash example as a character list. -/
def dblBackslashDoc : List Char := dblBackslashStr.toList

/-- An entry whose third argument carries an unpadded `\href`. -/
def hrefPlainDocStr : String :=
  "\\cventry\x7bT\x7d\x7bX\x7d\x7b\\href\x7bu\x7d\x7bL\x7d\x7d\x7bC\x7d"

/-- The unpadded href demo document as a character list. -/
def hrefPlainDoc : List Char := hrefPlainDocStr.toList

/-- The third argument of `hrefPlainDoc`. -/
def hrefArgStr : String := "\\href\x7bu\x7d\x7bL\x7d"

/-- The third argument as a character list. -/
def hrefArg : List Char := hrefArgStr.toList

/-! ## Helper lemmas: the brace matcher -/

theorem braceDelta_bounds (text : List Char) (p : Nat) :
    -1 ≤ braceDelta text p ∧ braceDelta text p ≤ 1 := by
  unfold braceDelta
  split_ifs <;> omega

theorem braceDelta_eq_neg_one (text : List Char) (p : Nat) :
    braceDelta text p = -1 ↔ isEscaped text p = false ∧ text.get? p = some '\x7d' := by
  unfold braceDelta
  split_ifs with h1 h2 h3 <;> simp_all

theorem sumDelta_shift (text : List Char) (pos : Nat) :
    ∀ j, sumDelta text pos (j + 1) = braceDelta text pos + sumDelta text (pos + 1) j := by
  intro j
  induction j with
  | zero => simp [sumDelta]
  | succ j ih =>
    have e : pos + 1 + j = pos + (j + 1) := by omega
    calc sumDelta text pos (j + 1 + 1)
        = sumDelta text pos (j + 1) + braceDelta text (pos + (j + 1)) := rfl
      _ = braceDelta text pos + sumDelta text (pos + 1) j + braceDelta text (pos + 1 + j) := by
          rw [ih, e]
      _ = braceDelta text pos + sumDelta text (pos + 1) (j + 1) := by
          show _ = braceDelta text pos + (sumDelta text (pos + 1) j + braceDelta text (pos + 1 + j))
          ring

theorem countStep_cast (text : List Char) (pos count : Nat) (hp : pos < text.length)
    (hc : 0 < count) :
    (((if isEscaped text pos then count
       else if text.get ⟨pos, hp⟩ = '\x7b' then count + 1
       else if text.get ⟨pos, hp⟩ = '\x7d' then count - 1
       else count) : Nat) : Int) = (count : Int) + braceDelta text pos := by
  have hg : text.get? pos = some (text.get ⟨pos, hp⟩) := List.get?_eq_get hp
  unfold braceDelta
  rw [hg]
  split_ifs with h1 h2 h3 <;> (simp_all; try omega)

theorem fmbLoop_count_zero (text : List Char) (fuel pos : Nat) :
    fmbLoop text fuel pos 0 = (pos : Int) := by
  cases fuel <;> simp [fmbLoop]

theorem fmbLoop_eq_of_first_zero (text : List Char) :
    ∀ fuel pos count j : Nat, text.length - pos ≤ fuel → 0 < count →
      pos + j ≤ text.length →
      (count : Int) + sumDelta text pos j = 0 →
      (∀ i, i < j → (count : Int) + sumDelta text pos i ≠ 0) →
      fmbLoop text fuel pos count = ((pos + j : Nat) : Int) := by
  intro fuel
  induction fuel with
  | zero =>
    intro pos count j hf hc hb hz _hm
    exfalso
    have hj : j ≠ 0 := by
      intro h0; subst h0; simp [sumDelta] at hz; omega
    omega
  | succ fuel ih =>
    intro pos count j hf hc hb hz hm
    have hj : j ≠ 0 := by
      intro h0; subst h0; simp [sumDelta] at hz; omega
    obtain ⟨jj, rfl⟩ : ∃ jj, j = jj + 1 := ⟨j - 1, by omega⟩
    have hp : pos < text.length := by omega
    have hstep := countStep_cast text pos count hp hc
    rw [show fmbLoop text (fuel + 1) pos count =
        fmbLoop text fuel (pos + 1)
          (if isEscaped text pos then count
           else if text.get ⟨pos, hp⟩ = '\x7b' then count + 1
           else if text.get ⟨pos, hp⟩ = '\x7d' then count - 1
           else count) by
      simp only [fmbLoop]
      rw [if_neg (by omega), dif_pos hp]]
    set count' := (if isEscaped text pos then count
           else if text.get ⟨pos, hp⟩ = '\x7b' then count + 1
           else if text.get ⟨pos, hp⟩ = '\x7d' then count - 1
           else count) with hc'
    have hshift : ∀ m, (count : Int) + sumDelta text pos (m + 1)
        = (count' : Int) + sumDelta text (pos + 1) m := by
      intro m
      rw [sumDelta_shift, hstep]
      ring
    by_cases hz' : count' = 0
    · have hjj : jj = 0 := by
        by_contra hne
        have h1 := hm 1 (by omega)
        have h2 : (count : Int) + sumDelta text pos 1
            = (count' : Int) + sumDelta text (pos + 1) 0 := hshift 0
        rw [h2] at h1
        simp [sumDelta, hz'] at h1
      subst hjj
      rw [hz', fmbLoop_count_zero]
    · have hcpos : 0 < count' := Nat.pos_of_ne_zero hz'
      have := ih (pos + 1) count' jj (by omega) hcpos (by omega)
        (by rw [← hshift jj]; exact hz)
        (by intro i hi
            rw [← hshift i]
            exact hm (i + 1) (by omega))
      rw [this]
      congr 1
      omega

theorem fmbLoop_eq_neg_one (text : List Char) :
    ∀ fuel pos count : Nat, text.length - pos ≤ fuel → 0 < count →
      (∀ j, pos + j ≤ text.length → (count : Int) + sumDelta text pos j ≠ 0) →
      fmbLoop text fuel pos count = -1 := by
  intro fuel
  induction fuel with
  | zero =>
    intro pos count _hf hc _hall
    simp only [fmbLoop]
    rw [if_neg (by omega)]
  | succ fuel ih =>
    intro pos count hf hc hall
    by_cases hp : pos < text.length
    · have hstep := countStep_cast text pos count hp hc
      rw [show fmbLoop text (fuel + 1) pos count =
          fmbLoop text fuel (pos + 1)
            (if isEscaped text pos then count
             else if text.get ⟨pos, hp⟩ = '\x7b' then count + 1
             else if text.get ⟨pos, hp⟩ = '\x7d' then count - 1
             else count) by
        simp only [fmbLoop]
        rw [if_neg (by omega), dif_pos hp]]
      set count' := (if isEscaped text pos then count
             else if text.get ⟨pos, hp⟩ = '\x7b' then count + 1
             else if text.get ⟨pos, hp⟩ = '\x7d' then count - 1
             else count) with hc'
      have hshift : ∀ m, (count : Int) + sumDelta text pos (m + 1)
          = (count' : Int) + sumDelta text (pos + 1) m := by
        intro m
        rw [sumDelta_shift, hstep]
        ring
      have hz' : count' ≠ 0 := by
        intro h0
        have h1 := hall 1 (by omega)
        have h2 : (count : Int) + sumDelta text pos 1
            = (count' : Int) + sumDelta text (pos + 1) 0 := hshift 0
        rw [h2] at h1
        simp [sumDelta, h0] at h1
      exact ih (pos + 1) count' (by omega) (Nat.pos_of_ne_zero hz')
        (by intro m hm
            rw [← hshift m]
            exact hall (m + 1) (by omega))
    · simp only [fmbLoop]
      rw [if_neg (by omega), dif_neg hp]

theorem depthAfter_zero (text : List Char) (s : Nat) : depthAfter text s 0 = 1 := by
  simp [depthAfter, sumDelta]

theorem depthAfter_succ (text : List Char) (s j : Nat) :
    depthAfter text s (j + 1) = depthAfter text s j + braceDelta text (s + j) := by
  simp only [depthAfter, sumDelta]
  ring

theorem depthAfter_pos (text : List Char) (s j : Nat)
    (h : ∀ i, i ≤ j → depthAfter text s i ≠ 0) :
    ∀ i, i ≤ j → 1 ≤ depthAfter text s i := by
  intro i
  induction i with
  | zero => intro _; simp [depthAfter, sumDelta]
  | succ i ih =>
    intro hij
    have h1 := ih (by omega)
    have h2 := h (i + 1) hij
    have h3 := braceDelta_bounds text (s + i)
    have : depthAfter text s (i + 1) = depthAfter text s i + braceDelta text (s + i) := by
      simp [depthAfter, sumDelta]; ring
    omega

theorem fmb_success_spec (text : List Char) (s : Nat) (e : Int)
    (h : find_matching_brace text s = e) (hne : e ≠ -1) :
    ∃ j, s + j < text.length ∧ e = ((s + j + 1 : Nat) : Int) ∧
      isEscaped text (s + j) = false ∧ text.get? (s + j) = some '\x7d' ∧
      depthAfter text s (j + 1) = 0 ∧ ∀ i, i ≤ j → depthAfter text s i ≠ 0 := by
  unfold find_matching_brace at h
  by_cases hg : text.length = 0 ∨ text.length ≤ s
  · rw [if_pos hg] at h
    exact absurd h.symm hne
  · rw [if_neg hg] at h
    push_neg at hg
    by_cases hex : ∃ j, s + j ≤ text.length ∧ (1 : Int) + sumDelta text s j = 0
    · have hspec := Nat.find_spec hex
      have hmin : ∀ i, i < Nat.find hex → (1 : Int) + sumDelta text s i ≠ 0 := by
        intro i hi hz
        exact Nat.find_min hex hi ⟨by omega, hz⟩
      have hj0 : Nat.find hex ≠ 0 := by
        intro h0
        rw [h0] at hspec
        simp [sumDelta] at hspec
      obtain ⟨j, hj⟩ : ∃ j, Nat.find hex = j + 1 := ⟨Nat.find hex - 1, by omega⟩
      rw [fmbLoop_eq_of_first_zero text (text.length - s) s 1 (Nat.find hex)
        (le_refl _) one_pos hspec.1 hspec.2 hmin] at h
      refine ⟨j, by omega, ?_, ?_, ?_, ?_, ?_⟩
      · rw [← h]; congr 1; omega
      all_goals {
        have hall : ∀ i, i ≤ j → depthAfter text s i ≠ 0 := by
          intro i hi
          exact hmin i (by omega)
        have hz : depthAfter text s (j + 1) = 0 := by
          show (1 : Int) + sumDelta text s (j + 1) = 0
          rw [← hj]; exact hspec.2
        have hdp := depthAfter_pos text s j hall j (le_refl _)
        have hsucc := depthAfter_succ text s j
        have hbb := braceDelta_bounds text (s + j)
        have hd : braceDelta text (s + j) = -1 := by omega
        have hchar := (braceDelta_eq_neg_one text (s + j)).mp hd
        first
          | exact hchar.1
          | exact hchar.2
          | exact hz
          | exact hall
      }
    · rw [fmbLoop_eq_neg_one text (text.length - s) s 1 (le_refl _) one_pos
        (by
          intro j hj hz
          exact hex ⟨j, hj, hz⟩)] at h
      exact absurd h.symm hne

theorem fmb_fail_iff (text : List Char) (s : Nat) :
    find_matching_brace text s = -1 ↔
      ∀ j, s + j ≤ text.length → depthAfter text s j ≠ 0 := by
  constructor
  · intro h j hj
    unfold find_matching_brace at h
    by_cases hg : text.length = 0 ∨ text.length ≤ s
    · have hj0 : j = 0 := by omega
      subst hj0
      rw [depthAfter_zero]
      omega
    · rw [if_neg hg] at h
      push_neg at hg
      by_cases hex : ∃ i, s + i ≤ text.length ∧ (1 : Int) + sumDelta text s i = 0
      · have hspec := Nat.find_spec hex
        have hmin : ∀ i, i < Nat.find hex → (1 : Int) + sumDelta text s i ≠ 0 := by
          intro i hi hz
          exact Nat.find_min hex hi ⟨by omega, hz⟩
        rw [fmbLoop_eq_of_first_zero text (text.length - s) s 1 (Nat.find hex)
          (le_refl _) one_pos hspec.1 hspec.2 hmin] at h
        omega
      · intro hz
        exact hex ⟨j, hj, hz⟩
  · intro hall
    unfold find_matching_brace
    by_cases hg : text.length = 0 ∨ text.length ≤ s
    · rw [if_pos hg]
    · rw [if_neg hg]
      exact fmbLoop_eq_neg_one text (text.length - s) s 1 (le_refl _) one_pos
        (fun j hj => hall j hj)

/-! ## Helper lemmas: the argument extractor -/

theorem skipWs_ge (text : List Char) :
    ∀ fuel pos, pos ≤ skipWs text fuel pos := by
  intro fuel
  induction fuel with
  | zero => intro pos; simp [skipWs]
  | succ fuel ih =>
    intro pos
    simp only [skipWs]
    split
    next h =>
      split
      · exact le_trans (by omega) (ih (pos + 1))
      · exact le_refl _
    next h => exact le_refl _

theorem skipWs_mem_ws (text : List Char) :
    ∀ fuel pos i, pos ≤ i → i < skipWs text fuel pos →
      ∃ c, text.get? i = some c ∧ isWsChar c = true := by
  intro fuel
  induction fuel with
  | zero =>
    intro pos i h1 h2
    simp [skipWs] at h2
    omega
  | succ fuel ih =>
    intro pos i h1 h2
    simp only [skipWs] at h2
    by_cases hp : pos < text.length
    · rw [dif_pos hp] at h2
      by_cases hw : isWsChar (text.get ⟨pos, hp⟩) = true
      · rw [if_pos hw] at h2
        by_cases hip : i = pos
        · subst hip
          exact ⟨text.get ⟨i, hp⟩, List.get?_eq_get hp, hw⟩
        · exact ih (pos + 1) i (by omega) h2
      · rw [if_neg hw] at h2
        omega
    · rw [dif_neg hp] at h2
      omega

theorem ExtractSpec_ge (text : List Char) :
    ∀ {pos n args final}, ExtractSpec text pos n args final → pos ≤ final := by
  intro pos n args final h
  induction h with
  | nil => exact le_refl _
  | cons pos n q j final rest hq _ _ _ _ _ _ _ ih => omega

theorem extractLoop_sound (text : List Char) (start : Nat) :
    ∀ k pos acc args p, extractLoop text start k pos acc = (some args, p) →
      ∃ extra, args = acc ++ extra ∧ extra.length = k ∧ ExtractSpec text pos k extra p := by
  intro k
  induction k with
  | zero =>
    intro pos acc args p h
    simp only [extractLoop, Prod.mk.injEq] at h
    obtain ⟨h1, rfl⟩ := h
    obtain rfl := Option.some.inj h1
    exact ⟨[], by simp, rfl, ExtractSpec.nil pos⟩
  | succ k ih =>
    intro pos acc args p h
    simp only [extractLoop] at h
    set q := skipWs text (text.length - pos) pos with hqdef
    split at h
    next h1 =>
      split at h
      next h2 =>
        split at h
        next h3 => simp at h
        next h3 =>
          obtain ⟨extra, hae, hle, hspec⟩ := ih _ _ _ _ h
          obtain ⟨j, hjlen, hje, hesc, hchar, hz, hnz⟩ :=
            fmb_success_spec text (q + 1) _ rfl h3
          have hN : (find_matching_brace text (q + 1)).toNat = q + 1 + j + 1 := by
            rw [hje]
            omega
          have hget : text.get? q = some '\x7b' := by
            rw [List.get?_eq_get h1, h2]
          have hsl : sliceList text (q + 1) ((find_matching_brace text (q + 1)).toNat - 1)
              = sliceList text (q + 1) (q + 1 + j) := by
            rw [hN]
            congr 1
          refine ⟨sliceList text (q + 1) (q + 1 + j) :: extra, ?_, by simp [hle], ?_⟩
          · rw [hae, hsl]
            simp
          · rw [hN] at hspec
            exact ExtractSpec.cons pos k q j p extra (skipWs_ge text _ pos)
              (fun i hi1 hi2 => skipWs_mem_ws text _ pos i hi1 hi2)
              hget hesc hchar hz hnz hspec
      next h2 => simp at h
    next h1 => simp at h

theorem extract_success_sound (text : List Char) (start : Nat) (n : Int)
    (args : List (List Char)) (p : Nat)
    (h : extract_latex_args text start n = (some args, p)) :
    args.length = n.toNat ∧ ExtractSpec text start n.toNat args p := by
  unfold extract_latex_args at h
  split at h
  next hg => simp at h
  next hg =>
    obtain ⟨extra, hae, hle, hspec⟩ := extractLoop_sound text start _ _ _ _ _ h
    simp only [List.nil_append] at hae
    subst hae
    exact ⟨hle, hspec⟩

theorem extractLoop_fail (text : List Char) (start : Nat) :
    ∀ k pos acc, (extractLoop text start k pos acc).1 = none →
      extractLoop text start k pos acc = (none, start) := by
  intro k
  induction k with
  | zero => intro pos acc h; simp [extractLoop] at h
  | succ k ih =>
    intro pos acc h
    simp only [extractLoop] at h ⊢
    by_cases h1 : skipWs text (text.length - pos) pos < text.length
    · rw [dif_pos h1] at h ⊢
      by_cases h2 : text.get ⟨skipWs text (text.length - pos) pos, h1⟩ = '\x7b'
      · rw [if_pos h2] at h ⊢
        by_cases h3 : find_matching_brace text (skipWs text (text.length - pos) pos + 1) = -1
        · rw [if_pos h3]
        · rw [if_neg h3] at h ⊢
          exact ih _ _ h
      · rw [if_neg h2]
    · rw [dif_neg h1]

theorem extract_fail_snd (text : List Char) (start : Nat) (n : Int)
    (h : (extract_latex_args text start n).1 = none) :
    (extract_latex_args text start n).2 = start := by
  unfold extract_latex_args at h ⊢
  split at h
  next hg => rw [if_pos hg]
  next hg =>
    rw [if_neg hg]
    rw [extractLoop_fail text start _ _ _ h]

theorem extract_success_ge (text : List Char) (start : Nat) (n : Int)
    (args : List (List Char)) (p : Nat)
    (h : extract_latex_args text start n = (some args, p)) : start ≤ p :=
  ExtractSpec_ge text (extract_success_sound text start n args p h).2

/-! ## Helper lemmas: the entry scanner -/

theorem findPatFrom_bounds (pat text : List Char) :
    ∀ fuel pos i, findPatFrom pat text fuel pos = some i →
      pos ≤ i ∧ pat.isPrefixOf (text.drop i) = true := by
  intro fuel
  induction fuel with
  | zero =>
    intro pos i h
    simp only [findPatFrom] at h
    split at h
    next hp => obtain rfl := Option.some.inj h; exact ⟨le_refl _, hp⟩
    next hp => simp at h
  | succ fuel ih =>
    intro pos i h
    simp only [findPatFrom] at h
    split at h
    next hp => obtain rfl := Option.some.inj h; exact ⟨le_refl _, hp⟩
    next hp =>
      split at h
      next hl =>
        obtain ⟨h1, h2⟩ := ih (pos + 1) i h
        exact ⟨by omega, h2⟩
      next hl => simp at h

theorem findPatFrom_in_text (pat text : List Char) (fuel pos i : Nat)
    (hpat : 0 < pat.length)
    (h : findPatFrom pat text fuel pos = some i) :
    pos ≤ i ∧ i + pat.length ≤ text.length := by
  obtain ⟨h1, h2⟩ := findPatFrom_bounds pat text fuel pos i h
  refine ⟨h1, ?_⟩
  have h3 : pat <+: text.drop i := List.isPrefixOf_iff_prefix.mp h2
  have h4 := h3.length_le
  rw [List.length_drop] at h4
  omega

theorem cventryMarker_length : cventryMarker.length = 8 := by decide

/-- One unfolding of the scanner loop. -/
theorem parseLoop_succ (text : List Char) (fuel pos : Nat) :
    parseLoop text (fuel + 1) pos =
      match findPatFrom cventryMarker text (text.length + 1) pos with
      | none => []
      | some i =>
        match extract_latex_args text (i + cventryMarker.length) 4 with
        | (some (t :: te :: lc :: c :: []), endPos) =>
          mkEntry t te lc c :: parseLoop text fuel endPos
        | (_, _) => parseLoop text fuel (i + cventryMarker.length + 1) := rfl

theorem parseLoop_none (text : List Char) (fuel pos : Nat)
    (hf : findPatFrom cventryMarker text (text.length + 1) pos = none) :
    parseLoop text (fuel + 1) pos = [] := by
  rw [parseLoop_succ, hf]

theorem parseLoop_found_ok (text : List Char) (fuel pos i : Nat)
    (t te lc c : List Char) (endPos : Nat)
    (hf : findPatFrom cventryMarker text (text.length + 1) pos = some i)
    (he : extract_latex_args text (i + cventryMarker.length) 4
      = (some [t, te, lc, c], endPos)) :
    parseLoop text (fuel + 1) pos = mkEntry t te lc c :: parseLoop text fuel endPos := by
  rw [parseLoop_succ, hf]
  show (match extract_latex_args text (i + cventryMarker.length) 4 with
    | (some (t :: te :: lc :: c :: []), endPos) =>
      mkEntry t te lc c :: parseLoop text fuel endPos
    | (_, _) => parseLoop text fuel (i + cventryMarker.length + 1)) = _
  rw [he]

theorem parseLoop_found_fail (text : List Char) (fuel pos i : Nat) (r : Nat)
    (hf : findPatFrom cventryMarker text (text.length + 1) pos = some i)
    (he : extract_latex_args text (i + cventryMarker.length) 4 = (none, r)) :
    parseLoop text (fuel + 1) pos = parseLoop text fuel (i + cventryMarker.length + 1) := by
  rw [parseLoop_succ, hf]
  show (match extract_latex_args text (i + cventryMarker.length) 4 with
    | (some (t :: te :: lc :: c :: []), endPos) =>
      mkEntry t te lc c :: parseLoop text fuel endPos
    | (_, _) => parseLoop text fuel (i + cventryMarker.length + 1)) = _
  rw [he]

theorem length_eq_four {α : Type} (l : List α) (h : l.length = 4) :
    ∃ a b c d, l = [a, b, c, d] := by
  match l, h with
  | [a, b, c, d], _ => exact ⟨a, b, c, d, rfl⟩

theorem parseLoop_fuel_step (text : List Char) :
    ∀ fuel pos, text.length + 2 ≤ fuel + pos →
      parseLoop text (fuel + 1) pos = parseLoop text fuel pos := by
  intro fuel
  induction fuel with
  | zero =>
    intro pos hp
    have hnone : findPatFrom cventryMarker text (text.length + 1) pos = none := by
      cases hf : findPatFrom cventryMarker text (text.length + 1) pos with
      | none => rfl
      | some i =>
        obtain ⟨h1, h2⟩ := findPatFrom_in_text _ _ _ _ _ (by decide) hf
        rw [cventryMarker_length] at h2
        omega
    rw [parseLoop_none text 0 pos hnone]
    rfl
  | succ fuel ih =>
    intro pos hp
    cases hf : findPatFrom cventryMarker text (text.length + 1) pos with
    | none => rw [parseLoop_none text (fuel + 1) pos hf, parseLoop_none text fuel pos hf]
    | some i =>
      have hpos : pos ≤ i := (findPatFrom_in_text _ _ _ _ _ (by decide) hf).1
      rcases he : extract_latex_args text (i + cventryMarker.length) 4 with ⟨fst, endPos⟩
      cases fst with
      | none =>
        rw [parseLoop_found_fail text (fuel + 1) pos i endPos hf he,
          parseLoop_found_fail text fuel pos i endPos hf he]
        exact ih (i + cventryMarker.length + 1) (by
          have := cventryMarker_length
          omega)
      | some args =>
        have hlen : args.length = 4 :=
          (extract_success_sound text (i + cventryMarker.length) 4 args endPos he).1
        obtain ⟨t, te, lc, c, rfl⟩ := length_eq_four args hlen
        have hge := extract_success_ge text (i + cventryMarker.length) 4 _ endPos he
        rw [parseLoop_found_ok text (fuel + 1) pos i t te lc c endPos hf he,
          parseLoop_found_ok text fuel pos i t te lc c endPos hf he]
        rw [ih endPos (by
          have := cventryMarker_length
          omega)]

theorem parseLoop_fuel_add (text : List Char) :
    ∀ k fuel pos, text.length + 2 ≤ fuel + pos →
      parseLoop text (fuel + k) pos = parseLoop text fuel pos := by
  intro k
  induction k with
  | zero => intro fuel pos _; rfl
  | succ k ih =>
    intro fuel pos hp
    have h1 : fuel + (k + 1) = (fuel + k) + 1 := by omega
    rw [h1, parseLoop_fuel_step text (fuel + k) pos (by omega), ih fuel pos hp]

theorem mem_parseLoop (text : List Char) :
    ∀ fuel pos r, r ∈ parseLoop text fuel pos →
      ∃ t te lc c, r = mkEntry t te lc c := by
  intro fuel
  induction fuel with
  | zero => intro pos r h; simp [parseLoop] at h
  | succ fuel ih =>
    intro pos r h
    cases hf : findPatFrom cventryMarker text (text.length + 1) pos with
    | none =>
      rw [parseLoop_none text fuel pos hf] at h
      simp at h
    | some i =>
      rcases he : extract_latex_args text (i + cventryMarker.length) 4 with ⟨fst, endPos⟩
      cases fst with
      | none =>
        rw [parseLoop_found_fail text fuel pos i endPos hf he] at h
        exact ih _ r h
      | some args =>
        have hlen : args.length = 4 :=
          (extract_success_sound text (i + cventryMarker.length) 4 args endPos he).1
        obtain ⟨t, te, lc, c, rfl⟩ := length_eq_four args hlen
        rw [parseLoop_found_ok text fuel pos i t te lc c endPos hf he] at h
        rcases List.mem_cons.mp h with h | h
        · exact ⟨t, te, lc, c, h⟩
        · exact ih _ r h

/-! ## Helper lemmas: escape parity -/

theorem backslashRun_cbb (text : List Char) :
    ∀ p k, backslashRun text p k → countBackslashesBefore text p = k := by
  intro p
  induction p with
  | zero =>
    intro k h
    have hk : k = 0 := by
      have := h.1
      omega
    subst hk
    rfl
  | succ p ih =>
    intro k h
    obtain ⟨hk, hall, hb⟩ := h
    by_cases hc : text.get? p = some '\\'
    · cases k with
      | zero =>
        exfalso
        rcases hb with hb | hb
        · omega
        · exact hb hc
      | succ k' =>
        have hrun : backslashRun text p k' := by
          refine ⟨by omega, ?_, ?_⟩
          · intro i hi
            have h1 := hall (i + 1) (by omega)
            have e : p + 1 - 1 - (i + 1) = p - 1 - i := by omega
            rwa [e] at h1
          · rcases hb with hb | hb
            · left; omega
            · right
              have e : p + 1 - 1 - (k' + 1) = p - 1 - k' := by omega
              rwa [e] at hb
        simp only [countBackslashesBefore]
        rw [if_pos hc, ih k' hrun]
    · cases k with
      | zero =>
        simp only [countBackslashesBefore]
        rw [if_neg hc]
      | succ k' =>
        exfalso
        exact hc (hall 0 (by omega))

theorem isEscaped_iff (text : List Char) (p : Nat) :
    isEscaped text p = true ↔ countBackslashesBefore text p % 2 = 1 := by
  unfold isEscaped
  exact beq_iff_eq ..

/-! ## Helper lemmas: the `\href` regex model -/

theorem scanGroup_sound :
    ∀ s g r, scanGroup s = some (g, r) →
      s = g ++ '\x7d' :: r ∧ g ≠ [] ∧ ∀ c ∈ g, c ≠ '\x7d' := by
  intro s
  induction s with
  | nil => intro g r h; simp [scanGroup] at h
  | cons c rest ih =>
    intro g r h
    cases rest with
    | nil =>
      simp only [scanGroup] at h
      split at h <;> simp at h
    | cons c2 rest2 =>
      simp only [scanGroup] at h
      split at h
      next hc => simp at h
      next hc =>
        split at h
        next hc2 =>
          simp only [Option.some.injEq, Prod.mk.injEq] at h
          obtain ⟨h1, h2⟩ := h
          subst h1
          subst h2
          subst hc2
          exact ⟨rfl, by simp, by simpa using hc⟩
        next hc2 =>
          split at h
          next g' r' hrec =>
            simp only [Option.some.injEq, Prod.mk.injEq] at h
            obtain ⟨h1, h2⟩ := h
            subst h1
            subst h2
            obtain ⟨hs, hne, hmem⟩ := ih g' r' hrec
            refine ⟨by rw [hs]; rfl, by simp, ?_⟩
            intro x hx
            rcases List.mem_cons.mp hx with hx | hx
            · subst hx; exact hc
            · exact hmem x hx
          next hrec => simp at h

theorem scanGroup_complete :
    ∀ g r, g ≠ [] → (∀ c ∈ g, c ≠ '\x7d') →
      scanGroup (g ++ '\x7d' :: r) = some (g, r) := by
  intro g
  induction g with
  | nil => intro r h _; exact absurd rfl h
  | cons c g ih =>
    intro r _ hmem
    have hc : c ≠ '\x7d' := hmem c (List.mem_cons_self c g)
    cases g with
    | nil =>
      show scanGroup (c :: '\x7d' :: r) = some ([c], r)
      simp only [scanGroup]
      rw [if_neg hc]
      simp
    | cons c2 g' =>
      have hc2 : c2 ≠ '\x7d' := hmem c2 (by simp)
      have ihh : scanGroup (c2 :: (g' ++ '\x7d' :: r)) = some (c2 :: g', r) :=
        ih r (by simp) (fun x hx => hmem x (List.mem_cons_of_mem c hx))
      show scanGroup (c :: c2 :: (g' ++ '\x7d' :: r)) = some (c :: c2 :: g', r)
      simp only [scanGroup]
      rw [if_neg hc, if_neg hc2, ihh]

theorem pyHrefAt_iff (s : List Char) (i : Nat) (u l : List Char) :
    pyHrefAt s i = some (u, l) ↔ HrefMatchAt s i u l := by
  constructor
  · intro h
    unfold pyHrefAt at h
    split at h
    case isFalse => simp at h
    case isTrue hpre =>
      obtain ⟨t0, ht0⟩ := List.isPrefixOf_iff_prefix.mp hpre
      have hdrop : (s.drop i).drop hrefOpen.length = t0 := by
        rw [← ht0, List.drop_left]
      split at h
      next u' rest hsg =>
        split at h
        next c2 rest2 =>
          split at h
          next hc2 =>
            split at h
            next l' rem hsg2 =>
              simp only [Option.some.injEq, Prod.mk.injEq] at h
              obtain ⟨h1, h2⟩ := h
              subst h1
              subst h2
              subst hc2
              obtain ⟨hs1, hu1, hum⟩ := scanGroup_sound _ _ _ hsg
              obtain ⟨hs2, hl1, hlm⟩ := scanGroup_sound _ _ _ hsg2
              refine ⟨hu1, hl1, hum, hlm, rem, ?_⟩
              rw [← ht0, ← hdrop, hs1, hs2]
              simp
            next hsg2 => simp at h
          next hc2 => simp at h
        next => simp at h
      next hsg => simp at h
  · intro h
    obtain ⟨hu1, hl1, hum, hlm, tail, htail⟩ := h
    have hpre : hrefOpen.isPrefixOf (s.drop i) = true := by
      rw [htail]
      exact List.isPrefixOf_iff_prefix.mpr
        ⟨u ++ '\x7d' :: ('\x7b' :: (l ++ '\x7d' :: tail)), by simp⟩
    have hdrop : (s.drop i).drop hrefOpen.length
        = u ++ '\x7d' :: ('\x7b' :: (l ++ '\x7d' :: tail)) := by
      rw [htail]
      rw [show hrefOpen ++ u ++ '\x7d' :: '\x7b' :: l ++ '\x7d' :: tail
          = hrefOpen ++ (u ++ '\x7d' :: ('\x7b' :: (l ++ '\x7d' :: tail))) by simp]
      rw [List.drop_left]
    unfold pyHrefAt
    rw [if_pos hpre, hdrop, scanGroup_complete u _ hu1 hum]
    show (if '\x7b' = '\x7b' then
        match scanGroup (l ++ '\x7d' :: tail) with
        | some (l, _) => some (u, l)
        | none => none
      else none) = some (u, l)
    rw [if_pos rfl, scanGroup_complete l tail hl1 hlm]

theorem pyHrefAt_ge_len (s : List Char) (i : Nat) (h : s.length ≤ i) :
    pyHrefAt s i = none := by
  unfold pyHrefAt
  rw [List.drop_eq_nil_of_le h]
  rw [if_neg (by decide)]

theorem pyHrefSearch_sound (s : List Char) :
    ∀ fuel i0 u l, pyHrefSearch s fuel i0 = some (u, l) →
      ∃ i, i0 ≤ i ∧ pyHrefAt s i = some (u, l) ∧
        ∀ i', i0 ≤ i' → i' < i → pyHrefAt s i' = none := by
  intro fuel
  induction fuel with
  | zero =>
    intro i0 u l h
    exact ⟨i0, le_refl _, h, fun i' h1 h2 => absurd h1 (by omega)⟩
  | succ fuel ih =>
    intro i0 u l h
    cases ha : pyHrefAt s i0 with
    | some r =>
      simp only [pyHrefSearch, ha, Option.some.injEq] at h
      subst h
      exact ⟨i0, le_refl _, ha, fun i' h1 h2 => absurd h1 (by omega)⟩
    | none =>
      simp only [pyHrefSearch, ha] at h
      split at h
      next hlt =>
        obtain ⟨i, h1, h2, h3⟩ := ih (i0 + 1) u l h
        refine ⟨i, by omega, h2, ?_⟩
        intro i' hi1 hi2
        by_cases hei : i' = i0
        · subst hei; exact ha
        · exact h3 i' (by omega) hi2
      next hlt => simp at h

theorem pyHrefSearch_none (s : List Char) :
    ∀ fuel i0, s.length ≤ fuel + i0 → pyHrefSearch s fuel i0 = none →
      ∀ i, i0 ≤ i → pyHrefAt s i = none := by
  intro fuel
  induction fuel with
  | zero =>
    intro i0 hf h i hi
    by_cases hei : i = i0
    · subst hei; exact h
    · exact pyHrefAt_ge_len s i (by omega)
  | succ fuel ih =>
    intro i0 hf h i hi
    cases ha : pyHrefAt s i0 with
    | some r =>
      simp only [pyHrefSearch, ha] at h
      exact Option.noConfusion h
    | none =>
      simp only [pyHrefSearch, ha] at h
      by_cases hei : i = i0
      · subst hei; exact ha
      · split at h
        next hlt => exact ih (i0 + 1) (by omega) h i (by omega)
        next hlt => exact pyHrefAt_ge_len s i (by omega)

theorem pyHrefSearchTop_some (s u l : List Char)
    (h : pyHrefSearchTop s = some (u, l)) :
    ∃ i, HrefMatchAt s i u l ∧ ∀ i' u' l', i' < i → ¬HrefMatchAt s i' u' l' := by
  obtain ⟨i, _, h2, h3⟩ := pyHrefSearch_sound s s.length 0 u l h
  refine ⟨i, (pyHrefAt_iff s i u l).mp h2, ?_⟩
  intro i' u' l' hlt hm
  have := (pyHrefAt_iff s i' u' l').mpr hm
  rw [h3 i' (by omega) hlt] at this
  simp at this

theorem pyHrefSearchTop_none (s : List Char) (h : pyHrefSearchTop s = none) :
    ∀ i u l, ¬HrefMatchAt s i u l := by
  intro i u l hm
  have h1 := pyHrefSearch_none s s.length 0 (by omega) h i (by omega)
  have h2 := (pyHrefAt_iff s i u l).mpr hm
  rw [h1] at h2
  simp at h2

/-! ## Helper lemmas: stripping -/

theorem head?_dropWhile_false (p : Char → Bool) :
    ∀ (l : List Char) c, (l.dropWhile p).head? = some c → p c = false := by
  intro l
  induction l with
  | nil => intro c h; simp at h
  | cons a l ih =>
    intro c h
    by_cases pa : p a = true
    · rw [List.dropWhile_cons_of_pos pa] at h
      exact ih c h
    · rw [List.dropWhile_cons_of_neg pa] at h
      obtain rfl := Option.some.inj h
      simpa using pa

theorem getLast?_dropWhile_eq (p : Char → Bool) :
    ∀ (l : List Char), l.dropWhile p ≠ [] → (l.dropWhile p).getLast? = l.getLast? := by
  intro l
  induction l with
  | nil => intro h; simp at h
  | cons a l ih =>
    intro h
    by_cases pa : p a = true
    · rw [List.dropWhile_cons_of_pos pa] at h ⊢
      have hl : l ≠ [] := by
        intro h0; subst h0; simp at h
      rw [ih h]
      cases l with
      | nil => exact absurd rfl hl
      | cons b l2 => rw [List.getLast?_cons_cons]
    · rw [List.dropWhile_cons_of_neg pa]

theorem pyStrip_noEdgeWs (s : List Char) : noEdgeWs (pyStrip s) := by
  unfold pyStrip noEdgeWs
  constructor
  · intro c hc
    rw [List.head?_reverse] at hc
    have hne : (((s.dropWhile isPyWs).reverse).dropWhile isPyWs) ≠ [] := by
      intro h0
      rw [h0] at hc
      simp at hc
    rw [getLast?_dropWhile_eq isPyWs _ hne, List.getLast?_reverse] at hc
    exact head?_dropWhile_false isPyWs _ c hc
  · intro c hc
    rw [List.getLast?_reverse] at hc
    exact head?_dropWhile_false isPyWs _ c hc

/-! ## Claim theorems -/

/-- C1: whenever the Brace Matcher succeeds, the returned end position is the
index one past the unescaped closing brace that first brings the running
depth (initialized to 1) to zero — no shorter scanned prefix reaches net
depth zero — and it returns FAILURE (-1) exactly when the depth never
reaches zero before the text is exhausted. -/
theorem brace_matcher_depth_spec (text : List Char) (start : Nat) :
    (∀ e : Int, find_matching_brace text start = e → e ≠ -1 →
      ∃ j, start + j < text.length ∧ e = ((start + j + 1 : Nat) : Int) ∧
        isEscaped text (start + j) = false ∧ text.get? (start + j) = some '\x7d' ∧
        depthAfter text start (j + 1) = 0 ∧ ∀ i, i ≤ j → depthAfter text start i ≠ 0)
    ∧ (find_matching_brace text start = -1 ↔
        ∀ j, start + j ≤ text.length → depthAfter text start j ≠ 0) :=
  ⟨fun e h hne => fmb_success_spec text start e h hne, fmb_fail_iff text start⟩

/-- Witness for C1 at the concrete input `['a', '\x7d']`, start 0. -/
theorem brace_matcher_depth_spec_witness :
    ∃ j, 0 + j < 2 ∧ (2 : Int) = ((0 + j + 1 : Nat) : Int) ∧
      isEscaped ['a', '\x7d'] (0 + j) = false ∧
      (['a', '\x7d'].get? (0 + j) = some '\x7d') ∧
      depthAfter ['a', '\x7d'] 0 (j + 1) = 0 ∧
      ∀ i, i ≤ j → depthAfter ['a', '\x7d'] 0 i ≠ 0 :=
  (brace_matcher_depth_spec ['a', '\x7d'] 0).1 2 (by decide) (by decide)

/-- C3: a successful extraction returns exactly `num_args` strings, each the
text strictly between an opening brace and its matching closing brace (with
space/tab/newline runs skipped before each argument), with the final cursor
one past the last closing brace — all captured by `ExtractSpec`. -/
theorem extract_args_success_spec (text : List Char) (start : Nat) (n : Int)
    (args : List (List Char)) (p : Nat)
    (h : extract_latex_args text start n = (some args, p)) :
    args.length = n.toNat ∧ ExtractSpec text start n.toNat args p :=
  extract_success_sound text start n args p h

/-- Witness for C3 on `\cventry\x7bTitle\x7d\x7bTech\x7d\x7bLink\x7d\x7bContent\x7d`
at position 8 with 4 arguments, giving Title, Tech, Link, Content and end
offset 36. -/
theorem extract_args_success_spec_witness :
    extract_latex_args titleDoc 8 4 =
      (some [['T', 'i', 't', 'l', 'e'], ['T', 'e', 'c', 'h'],
        ['L', 'i', 'n', 'k'], ['C', 'o', 'n', 't', 'e', 'n', 't']], 36)
    ∧ ([['T', 'i', 't', 'l', 'e'], ['T', 'e', 'c', 'h'],
        ['L', 'i', 'n', 'k'], ['C', 'o', 'n', 't', 'e', 'n', 't']].length
          = (4 : Int).toNat
      ∧ ExtractSpec titleDoc 8 (4 : Int).toNat
          [['T', 'i', 't', 'l', 'e'], ['T', 'e', 'c', 'h'],
            ['L', 'i', 'n', 'k'], ['C', 'o', 'n', 't', 'e', 'n', 't']] 36) :=
  ⟨by decide,
    extract_args_success_spec titleDoc 8 4
      [['T', 'i', 't', 'l', 'e'], ['T', 'e', 'c', 'h'],
        ['L', 'i', 'n', 'k'], ['C', 'o', 'n', 't', 'e', 'n', 't']] 36 (by decide)⟩

/-- C7 counterexample: the matcher does not validate a negative start
position.  On text `"\x7d"` with `start_pos = -1` (out of the claimed range
`0 ≤ start_pos ≤ len`), Python wraps the index and the call returns 0
(success), not FAILURE. -/
theorem matcher_accepts_negative_start :
    find_matching_brace_int ['\x7d'] (-1) = some 0
    ∧ (-1 : Int) < 0 ∧ some (0 : Int) ≠ some (-1 : Int) := by decide

/-- C7 amended: the matcher itself checks only emptiness and the upper
bound: if the text is empty or `start_pos ≥ len(text)` it returns FAILURE;
a negative `start_pos` is not rejected. -/
theorem matcher_validates_upper_bound (text : List Char) (s : Int)
    (h : text.length = 0 ∨ (text.length : Int) ≤ s) :
    find_matching_brace_int text s = some (-1) := by
  unfold find_matching_brace_int
  rw [if_pos h]

/-- Witness for the amended C7 at text `['a']`, start 5. -/
theorem matcher_validates_upper_bound_witness :
    find_matching_brace_int ['a'] 5 = some (-1) :=
  matcher_validates_upper_bound ['a'] 5 (by decide)

/-- C9: scanning the empty document yields the empty record list and raises
no exception. -/
theorem scanner_empty_document : parse_cventry [] = [] := rfl

/-- C2: a character is escaped iff the number of consecutive backslashes
immediately preceding it is odd; an escaped brace contributes nothing to the
depth while an unescaped one does; the matcher's loop updates its counter by
exactly this contribution; a brace after two backslashes is unescaped (so
`\\\x7d` closes at that brace), and a closing brace after a single backslash
does not terminate matching (`\x7ba\}b\x7d` from position 1 closes at 6, not 4). -/
theorem escape_parity_spec (text : List Char) (p k : Nat)
    (hk : backslashRun text p k) :
    (isEscaped text p = true ↔ k % 2 = 1)
    ∧ (isEscaped text p = true → braceDelta text p = 0)
    ∧ (isEscaped text p = false → text.get? p = some '\x7b' → braceDelta text p = 1)
    ∧ (isEscaped text p = false → text.get? p = some '\x7d' → braceDelta text p = -1)
    ∧ (∀ count fuel : Nat, 0 < count → p < text.length →
        fmbLoop text (fuel + 1) p count
          = fmbLoop text fuel (p + 1) ((count : Int) + braceDelta text p).toNat)
    ∧ find_matching_brace escDoc 1 = 6
    ∧ find_matching_brace dblBackslashDoc 0 = 3 := by
  have hcbb := backslashRun_cbb text p k hk
  refine ⟨?_, ?_, ?_, ?_, ?_, by decide, by decide⟩
  · rw [isEscaped_iff, hcbb]
  · intro he
    unfold braceDelta
    rw [if_pos he]
  · intro he hg
    unfold braceDelta
    rw [if_neg (by simp [he]), if_pos hg]
  · intro he hg
    unfold braceDelta
    rw [if_neg (by simp [he]), if_neg (by rw [hg]; decide), if_pos hg]
  · intro count fuel hcnt hp
    have hstep := countStep_cast text p count hp hcnt
    rw [show fmbLoop text (fuel + 1) p count
        = fmbLoop text fuel (p + 1)
          (if isEscaped text p then count
           else if text.get ⟨p, hp⟩ = '\x7b' then count + 1
           else if text.get ⟨p, hp⟩ = '\x7d' then count - 1
           else count) by
      simp only [fmbLoop]
      rw [if_neg (by omega), dif_pos hp]]
    congr 1
    omega

/-- Witness for C2 on `\\\x7d` at position 2 with backslash run length 2. -/
theorem escape_parity_spec_witness :
    (isEscaped dblBackslashDoc 2 = true ↔ 2 % 2 = 1)
    ∧ (isEscaped dblBackslashDoc 2 = true → braceDelta dblBackslashDoc 2 = 0)
    ∧ (isEscaped dblBackslashDoc 2 = false →
        dblBackslashDoc.get? 2 = some '\x7b' → braceDelta dblBackslashDoc 2 = 1)
    ∧ (isEscaped dblBackslashDoc 2 = false →
        dblBackslashDoc.get? 2 = some '\x7d' → braceDelta dblBackslashDoc 2 = -1)
    ∧ (∀ count fuel : Nat, 0 < count → (2 : Nat) < dblBackslashDoc.length →
        fmbLoop dblBackslashDoc (fuel + 1) 2 count
          = fmbLoop dblBackslashDoc fuel (2 + 1)
              ((count : Int) + braceDelta dblBackslashDoc 2).toNat)
    ∧ find_matching_brace escDoc 1 = 6
    ∧ find_matching_brace dblBackslashDoc 0 = 3 :=
  escape_parity_spec dblBackslashDoc 2 2 (by decide)

/-- C4 counterexample: a failing call is not always `(FAILURE, start)`.
With text `"a"`, the out-of-range start `-5` and `num_args = 1`, Python
raises an uncaught `IndexError` (modelled by `none`) instead of returning
`(FAILURE, -5)`. -/
theorem extract_negative_start_raises :
    extract_latex_args_int ['a'] (-5) 1 = none
    ∧ extract_latex_args_int ['a'] (-5) 1
        ≠ some ((none : Option (List (List Char))), (-5 : Int)) := by decide

/-- C4 amended: for a non-negative start position every failing call returns
exactly `(FAILURE, start)` with the original start — never a partial
argument list or a partially advanced position — and every successful call
returns exactly `num_args` strings. -/
theorem extract_failure_atomic (text : List Char) (start : Nat) (n : Int) :
    ((extract_latex_args text start n).1 = none →
      extract_latex_args text start n = (none, start))
    ∧ (∀ args p, extract_latex_args text start n = (some args, p) →
        args.length = n.toNat) := by
  constructor
  · intro h
    have h2 := extract_fail_snd text start n h
    rcases hx : extract_latex_args text start n with ⟨fst, snd⟩
    rw [hx] at h h2
    simp only at h h2
    rw [h, h2]
  · intro args p h
    exact (extract_success_sound text start n args p h).1

/-- Witness for the amended C4: a truncated input (missing the `\x7b`)
fails and returns the original start unchanged. -/
theorem extract_failure_atomic_witness :
    extract_latex_args ['a'] 0 1 = (none, 0) :=
  (extract_failure_atomic ['a'] 0 1).1 (by decide)

/-- C5 counterexample: the scanner does not return a record for every
well-formed marker occurrence.  In `nestedDoc` both occurrences (at 0 and
at 9) extract successfully, yet the scan returns a single record, because
the second occurrence lies inside the first entry's arguments. -/
theorem scanner_misses_nested_wellformed :
    (extract_latex_args nestedDoc 8 4).1.isSome = true
    ∧ (extract_latex_args nestedDoc 17 4).1.isSome = true
    ∧ findPatFrom cventryMarker nestedDoc (nestedDoc.length + 1) 0 = some 0
    ∧ findPatFrom cventryMarker nestedDoc (nestedDoc.length + 1) 1 = some 9
    ∧ (parse_cventry nestedDoc).length = 1 := by decide

/-- C5 amended: on an extraction failure the scanner advances the cursor by
exactly one character past the marker's end and continues (the occurrence is
skipped), and a document with two well-formed occurrences and one malformed
occurrence between them yields exactly the two records, in document order;
occurrences inside a successfully parsed entry's arguments are not visited. -/
theorem scanner_skip_behavior (text : List Char) (fuel pos i : Nat)
    (h1 : findPatFrom cventryMarker text (text.length + 1) pos = some i)
    (h2 : (extract_latex_args text (i + cventryMarker.length) 4).1 = none) :
    parseLoop text (fuel + 1) pos = parseLoop text fuel (i + cventryMarker.length + 1)
    ∧ parse_cventry skipDoc =
        [⟨['A'], ['B'], [], ['C'], ['D']⟩, ⟨['E'], ['F'], [], ['G'], ['H']⟩] := by
  constructor
  · rcases hx : extract_latex_args text (i + cventryMarker.length) 4 with ⟨fst, snd⟩
    rw [hx] at h2
    simp only at h2
    subst h2
    exact parseLoop_found_fail text fuel pos i snd h1 hx
  · decide

/-- Witness for the amended C5 at the malformed middle occurrence of
`skipDoc` (marker at 20, extraction fails at 28). -/
theorem scanner_skip_behavior_witness :
    parseLoop skipDoc 6 20 = parseLoop skipDoc 5 29
    ∧ parse_cventry skipDoc =
        [⟨['A'], ['B'], [], ['C'], ['D']⟩, ⟨['E'], ['F'], [], ['G'], ['H']⟩] :=
  scanner_skip_behavior skipDoc 5 20 20 (by decide) (by decide)

/-- C6: the Entry Scanner terminates on every document: the result is
independent of the fuel once the fuel covers the document (the loop runs to
completion), because the cursor strictly increases on every iteration — on
failure it moves one past the marker's end, on success to the extractor's
end position, which lies past the marker. -/
theorem scanner_terminates (text : List Char) (f1 f2 : Nat)
    (h1 : text.length + 2 ≤ f1) (h2 : text.length + 2 ≤ f2) :
    parseLoop text f1 0 = parseLoop text f2 0
    ∧ (∀ pos i, findPatFrom cventryMarker text (text.length + 1) pos = some i →
        pos < i + cventryMarker.length + 1
        ∧ ∀ args p,
            extract_latex_args text (i + cventryMarker.length) 4 = (some args, p) →
            pos < p) := by
  constructor
  · have g1 : parseLoop text f1 0 = parseLoop text (text.length + 2) 0 := by
      conv_lhs => rw [show f1 = (text.length + 2) + (f1 - (text.length + 2)) by omega]
      exact parseLoop_fuel_add text (f1 - (text.length + 2)) (text.length + 2) 0 (by omega)
    have g2 : parseLoop text f2 0 = parseLoop text (text.length + 2) 0 := by
      conv_lhs => rw [show f2 = (text.length + 2) + (f2 - (text.length + 2)) by omega]
      exact parseLoop_fuel_add text (f2 - (text.length + 2)) (text.length + 2) 0 (by omega)
    rw [g1, g2]
  · intro pos i hf
    have hb := (findPatFrom_in_text _ _ _ _ _ (by decide) hf).1
    refine ⟨by omega, ?_⟩
    intro args p hp
    have hge := extract_success_ge text _ 4 args p hp
    have hL := cventryMarker_length
    omega

/-- Witness for C6 on the worked example document with fuels 40 and 38. -/
theorem scanner_terminates_witness :
    parseLoop titleDoc 40 0 = parseLoop titleDoc 38 0
    ∧ (∀ pos i,
        findPatFrom cventryMarker titleDoc (titleDoc.length + 1) pos = some i →
        pos < i + cventryMarker.length + 1
        ∧ ∀ args p,
            extract_latex_args titleDoc (i + cventryMarker.length) 4 = (some args, p) →
            pos < p) :=
  scanner_terminates titleDoc 40 38 (by decide) (by decide)

/-- C8 counterexample: the record's URL and label are not the wrapper's two
arguments verbatim — they are stripped.  In `hrefDoc`, the third extracted
argument carries `\href\x7b u \x7d\x7b l \x7d` whose regex groups are
`" u "` and `" l "`, but the returned record stores `"u"` and `"l"`. -/
theorem scanner_href_not_verbatim :
    (extract_latex_args hrefDoc 8 4).1
      = some [['T'], ['X'],
          ['\\', 'h', 'r', 'e', 'f', '\x7b', ' ', 'u', ' ', '\x7d',
            '\x7b', ' ', 'l', ' ', '\x7d'], ['C']]
    ∧ pyHrefSearchTop
        ['\\', 'h', 'r', 'e', 'f', '\x7b', ' ', 'u', ' ', '\x7d',
          '\x7b', ' ', 'l', ' ', '\x7d']
        = some ([' ', 'u', ' '], [' ', 'l', ' '])
    ∧ parse_cventry hrefDoc = [⟨['T'], ['X'], ['u'], ['l'], ['C']⟩]
    ∧ (['u'] : List Char) ≠ [' ', 'u', ' ']
    ∧ (['l'] : List Char) ≠ [' ', 'l', ' '] := by decide

/-- C8 amended: for every successfully extracted entry the scanner
post-processes the third argument: if the `\href` regex matches (at the
leftmost position), the record's URL and label are the wrapper's two
arguments with leading/trailing whitespace stripped; otherwise the URL is
empty and the label is the stripped whole third argument. -/
theorem scanner_href_split_trimmed (text : List Char) (fuel pos i : Nat)
    (t te lc c : List Char) (endPos : Nat)
    (h1 : findPatFrom cventryMarker text (text.length + 1) pos = some i)
    (h2 : extract_latex_args text (i + cventryMarker.length) 4
      = (some [t, te, lc, c], endPos)) :
    parseLoop text (fuel + 1) pos = mkEntry t te lc c :: parseLoop text fuel endPos
    ∧ (∀ u l, pyHrefSearchTop lc = some (u, l) →
        (mkEntry t te lc c).link_url = pyStrip u
        ∧ (mkEntry t te lc c).link_text = pyStrip l
        ∧ ∃ i0, HrefMatchAt lc i0 u l ∧ ∀ i' u' l', i' < i0 → ¬HrefMatchAt lc i' u' l')
    ∧ (pyHrefSearchTop lc = none →
        (mkEntry t te lc c).link_url = []
        ∧ (mkEntry t te lc c).link_text = pyStrip lc
        ∧ ∀ i0 u l, ¬HrefMatchAt lc i0 u l) := by
  refine ⟨parseLoop_found_ok text fuel pos i t te lc c endPos h1 h2, ?_, ?_⟩
  · intro u l hs
    unfold mkEntry
    rw [hs]
    exact ⟨rfl, rfl, pyHrefSearchTop_some lc u l hs⟩
  · intro hs
    unfold mkEntry
    rw [hs]
    exact ⟨rfl, rfl, pyHrefSearchTop_none lc hs⟩

/-- Witness for the amended C8 on an entry whose third argument is
`\href\x7bu\x7d\x7bL\x7d`. -/
theorem scanner_href_split_trimmed_witness :
    parseLoop hrefPlainDoc 1 0
      = mkEntry ['T'] ['X'] hrefArg ['C'] :: parseLoop hrefPlainDoc 0 30
    ∧ (∀ u l, pyHrefSearchTop hrefArg = some (u, l) →
        (mkEntry ['T'] ['X'] hrefArg ['C']).link_url = pyStrip u
        ∧ (mkEntry ['T'] ['X'] hrefArg ['C']).link_text = pyStrip l
        ∧ ∃ i0, HrefMatchAt hrefArg i0 u l
            ∧ ∀ i' u' l', i' < i0 → ¬HrefMatchAt hrefArg i' u' l')
    ∧ (pyHrefSearchTop hrefArg = none →
        (mkEntry ['T'] ['X'] hrefArg ['C']).link_url = []
        ∧ (mkEntry ['T'] ['X'] hrefArg ['C']).link_text = pyStrip hrefArg
        ∧ ∀ i0 u l, ¬HrefMatchAt hrefArg i0 u l) :=
  scanner_href_split_trimmed hrefPlainDoc 0 0 0 ['T'] ['X'] hrefArg ['C'] 30
    (by decide) (by decide)

/-- C10 (implicit): every field of every returned record — title, tech,
link_url, link_text and content — has no leading or trailing whitespace. -/
theorem record_fields_trimmed (text : List Char) (r : CvEntry)
    (h : r ∈ parse_cventry text) :
    noEdgeWs r.title ∧ noEdgeWs r.tech ∧ noEdgeWs r.link_url
    ∧ noEdgeWs r.link_text ∧ noEdgeWs r.content := by
  unfold parse_cventry at h
  split at h
  next => simp at h
  next =>
    obtain ⟨t, te, lc, c, rfl⟩ := mem_parseLoop text _ _ r h
    unfold mkEntry
    cases hs : pyHrefSearchTop lc with
    | some ul =>
      obtain ⟨u, l⟩ := ul
      exact ⟨pyStrip_noEdgeWs t, pyStrip_noEdgeWs te, pyStrip_noEdgeWs u,
        pyStrip_noEdgeWs l, pyStrip_noEdgeWs c⟩
    | none =>
      exact ⟨pyStrip_noEdgeWs t, pyStrip_noEdgeWs te, pyStrip_noEdgeWs [],
        pyStrip_noEdgeWs lc, pyStrip_noEdgeWs c⟩

/-- Witness for C10 on the whitespace-padded document. -/
theorem record_fields_trimmed_witness :
    noEdgeWs (['T'] : List Char) ∧ noEdgeWs (['X'] : List Char)
    ∧ noEdgeWs ([] : List Char) ∧ noEdgeWs (['C'] : List Char)
    ∧ noEdgeWs (['B'] : List Char) :=
  record_fields_trimmed padDoc ⟨['T'], ['X'], [], ['C'], ['B']⟩ (by decide)

end Resume
